import Mathlib

/-!
Verification of the JSONPath-subset extractor (path compiler + path
evaluator) against its specification.

The extractor implementation itself (SIMDJsonExtractor and its path
tokenizer) is not part of the sources provided under src/; only its unit
tests are.  Following the rules for missing code, the definitions below are
modelled from the specification (spec.md sections 3, 4, 6 and 7), with the
unit tests of src/velox/functions/prestosql/json/tests/SIMDJsonExtractorTest.cpp
pinning the behaviour wherever the spec text is ambiguous or contradicts
itself.  Each modelled definition carries a doc comment naming what it
stands in for.

Machine integers play no role here (array indices are unbounded Nats in the
spec's sense; JSON numbers are kept as their literal text, exactly as the
on-demand reader re-serialises them), so Nat/String are used directly.
-/

namespace VeloxJsonPath

/-- Modelled from the spec: the "JSON Node" of section 3 — one of null,
bool, number, string, array, object.  Numbers keep their literal text,
since the external reader re-serialises a numeric node as its canonical
numeric text and no arithmetic is ever performed on it.  Strings and object
keys hold their decoded (unescaped) content, as produced by the external
on-demand reader. -/
inductive Json where
  | null : Json
  | bool (b : Bool) : Json
  | num (raw : String) : Json
  | str (s : String) : Json
  | arr (items : List Json) : Json
  | obj (fields : List (String × Json)) : Json

/-- Modelled from the spec: the "Selector" tagged variant of section 3
(Root is kept implicit: a compiled program is the selector list after the
root anchor). -/
inductive Selector where
  | childByName (key : String) : Selector
  | childByIndex (i : Nat) : Selector
  | childByNameOrIndex (token : String) : Selector
  | wildcard : Selector
  | recursiveDescent : Selector
deriving DecidableEq

/-- Modelled from the spec: the error taxonomy of section 7 that is visible
to a caller of the extractor.  `invalidPath` is the InvalidPathError thrown
at extractor-acquisition (compile) time; `jsonParseError` is the
JsonParseError status returned (not thrown) by extract.  NoMatch is not an
error: it is the success value with zero matches. -/
inductive ExtractError where
  | invalidPath : ExtractError
  | jsonParseError : ExtractError
deriving DecidableEq

instance {ε α : Type} [DecidableEq ε] [DecidableEq α] : DecidableEq (Except ε α) := by
  intro x y
  cases x <;> cases y
  case error.error a b =>
    exact if h : a = b then .isTrue (by rw [h]) else .isFalse (by simp [h])
  case ok.ok a b =>
    exact if h : a = b then .isTrue (by rw [h]) else .isFalse (by simp [h])
  case error.ok a b => exact .isFalse (by simp)
  case ok.error a b => exact .isFalse (by simp)

/-- Character constant: the double quote. -/
def dquoteC : Char := Char.ofNat 34

/-- Character constant: the single quote. -/
def squoteC : Char := Char.ofNat 39

/-- Character constant: the backslash. -/
def bslashC : Char := Char.ofNat 92

/-- Character constant: the opening curly brace. -/
def obraceC : Char := Char.ofNat 123

/-- Character constant: the closing curly brace. -/
def cbraceC : Char := Char.ofNat 125

/-- Whitespace recognised around paths and inside JSON documents. -/
def wsChar (c : Char) : Bool :=
  c == ' ' || c == '\t' || c == '\n' || c == '\r'

/-- Decimal digit test on a character. -/
def digitChar (c : Char) : Bool :=
  48 ≤ c.toNat && c.toNat ≤ 57

/-- Numeric value of a run of decimal digits. -/
def digitsVal (cs : List Char) : Nat :=
  cs.foldl (fun a c => 10 * a + (c.toNat - 48)) 0

/-- Value of one hexadecimal digit, if the character is one. -/
def hexDigitVal (c : Char) : Option Nat :=
  if digitChar c then some (c.toNat - 48)
  else if 97 ≤ c.toNat && c.toNat ≤ 102 then some (c.toNat - 87)
  else if 65 ≤ c.toNat && c.toNat ≤ 70 then some (c.toNat - 55)
  else none

/-- Decoded character of a single-character JSON escape (the character
after the backslash), when it is a legal one. -/
def escapeCode (c : Char) : Option Char :=
  if c == dquoteC then some dquoteC
  else if c == bslashC then some bslashC
  else if c == '/' then some '/'
  else if c == 'b' then some (Char.ofNat 8)
  else if c == 'f' then some (Char.ofNat 12)
  else if c == 'n' then some (Char.ofNat 10)
  else if c == 'r' then some (Char.ofNat 13)
  else if c == 't' then some (Char.ofNat 9)
  else none

/-- Drop leading JSON whitespace. -/
def skipWsL (cs : List Char) : List Char :=
  cs.dropWhile wsChar

/-- Modelled from the spec: the external on-demand reader's string
decoding.  Reads the body of a JSON string after its opening quote,
decoding every escape (including the hexadecimal form), and returns the
decoded characters together with the input after the closing quote.  An
unterminated string or an unknown escape is a parse failure. -/
def stringBody : List Char → Option (List Char × List Char)
  | [] => none
  | c :: cs =>
    if c == dquoteC then some ([], cs)
    else if c == bslashC then
      match cs with
      | [] => none
      | e :: cs2 =>
        if e == 'u' then
          match cs2 with
          | h1 :: h2 :: h3 :: h4 :: cs3 =>
            match hexDigitVal h1, hexDigitVal h2, hexDigitVal h3, hexDigitVal h4 with
            | some a, some b, some c2, some d =>
              match stringBody cs3 with
              | some (t, r) => some (Char.ofNat (((a * 16 + b) * 16 + c2) * 16 + d) :: t, r)
              | none => none
            | _, _, _, _ => none
          | _ => none
        else
          match escapeCode e with
          | some d =>
            match stringBody cs2 with
            | some (t, r) => some (d :: t, r)
            | none => none
          | none => none
    else
      match stringBody cs with
      | some (t, r) => some (c :: t, r)
      | none => none

/-- Leading run of decimal digits of the input, and the rest. -/
def takeDigits (cs : List Char) : List Char × List Char :=
  cs.span digitChar

/-- Exponent digits of a JSON number (after the e/E marker): an optional
sign then at least one digit.  `acc` is the literal text read so far. -/
def numberExp (acc : List Char) (cs : List Char) : Option (List Char × List Char) :=
  let (sgn, cs1) :=
    match cs with
    | '+' :: r => ((['+'] : List Char), r)
    | '-' :: r => ((['-'] : List Char), r)
    | _ => ([], cs)
  match takeDigits cs1 with
  | ([], _) => none
  | (ds, cs2) => some (acc ++ sgn ++ ds, cs2)

/-- Optional exponent part of a JSON number. -/
def numberTail (acc : List Char) (cs : List Char) : Option (List Char × List Char) :=
  match cs with
  | 'e' :: r => numberExp (acc ++ ['e']) r
  | 'E' :: r => numberExp (acc ++ ['E']) r
  | _ => some (acc, cs)

/-- Literal text of a JSON number at the head of the input: optional minus,
integer digits, optional fraction, optional exponent. -/
def numberToken (cs : List Char) : Option (List Char × List Char) :=
  let (sgn, cs1) :=
    match cs with
    | '-' :: r => ((['-'] : List Char), r)
    | _ => ([], cs)
  match takeDigits cs1 with
  | ([], _) => none
  | (ds, cs2) =>
    match cs2 with
    | '.' :: r =>
      match takeDigits r with
      | ([], _) => none
      | (fs, cs3) => numberTail (sgn ++ ds ++ '.' :: fs) cs3
    | _ => numberTail (sgn ++ ds) cs2

mutual

/-- Modelled from the spec: the external on-demand JSON reader (section 2),
collapsed into an eager parser.  The reader can fail on malformed input at
any access; in this model the whole document is decoded up front, so a
document that is malformed anywhere the evaluator could look yields a parse
failure.  Fuel is structural bookkeeping only; extract supplies enough for
any input. -/
def jsonVal : Nat → List Char → Option (Json × List Char)
  | 0, _ => none
  | fuel + 1, cs =>
    match skipWsL cs with
    | 'n' :: 'u' :: 'l' :: 'l' :: r => some (.null, r)
    | 't' :: 'r' :: 'u' :: 'e' :: r => some (.bool true, r)
    | 'f' :: 'a' :: 'l' :: 's' :: 'e' :: r => some (.bool false, r)
    | '[' :: r =>
      match skipWsL r with
      | ']' :: r2 => some (.arr [], r2)
      | r2 =>
        match jsonElems fuel r2 with
        | some (vs, r3) =>
          match skipWsL r3 with
          | ']' :: r4 => some (.arr vs, r4)
          | _ => none
        | none => none
    | c :: r =>
      if c == dquoteC then
        match stringBody r with
        | some (t, r2) => some (.str (String.mk t), r2)
        | none => none
      else if c == obraceC then
        match skipWsL r with
        | [] => none
        | d :: r2 =>
          if d == cbraceC then some (.obj [], r2)
          else
            match jsonMembers fuel (d :: r2) with
            | some (fs, r3) =>
              match skipWsL r3 with
              | e :: r4 => if e == cbraceC then some (.obj fs, r4) else none
              | [] => none
            | none => none
      else
        match numberToken (c :: r) with
        | some (t, r2) => some (.num (String.mk t), r2)
        | none => none
    | [] => none

/-- Comma-separated array elements; the closing bracket is left for the
caller to consume. -/
def jsonElems : Nat → List Char → Option (List Json × List Char)
  | 0, _ => none
  | fuel + 1, cs =>
    match jsonVal fuel cs with
    | some (v, r) =>
      match skipWsL r with
      | ',' :: r2 =>
        match jsonElems fuel r2 with
        | some (vs, r3) => some (v :: vs, r3)
        | none => none
      | r2 => some ([v], r2)
    | none => none

/-- Comma-separated object members; the closing brace is left for the
caller to consume. -/
def jsonMembers : Nat → List Char → Option (List (String × Json) × List Char)
  | 0, _ => none
  | fuel + 1, cs =>
    match skipWsL cs with
    | [] => none
    | c :: r =>
      if c == dquoteC then
        match stringBody r with
        | some (k, r2) =>
          match skipWsL r2 with
          | ':' :: r3 =>
            match jsonVal fuel r3 with
            | some (v, r4) =>
              match skipWsL r4 with
              | ',' :: r5 =>
                match jsonMembers fuel r5 with
                | some (fs, r6) => some ((String.mk k, v) :: fs, r6)
                | none => none
              | r5 => some ([(String.mk k, v)], r5)
            | none => none
          | _ => none
        | none => none
      else none

end

/-- Modelled from the spec: decoding a whole document through the external
reader.  A malformed document (or trailing garbage after the value) is a
parse failure; section 7 classifies it as JsonParseError. -/
def parseJson (s : String) : Option Json :=
  match jsonVal (2 * s.toList.length + 4) s.toList with
  | some (v, r) => if (skipWsL r).isEmpty then some v else none
  | none => none

/-- Hexadecimal digit character (lower case) for a value below 16. -/
def hexDigitChar (n : Nat) : Char :=
  if n < 10 then Char.ofNat (48 + n) else Char.ofNat (87 + n)

/-- JSON escaping of one character for re-serialisation. -/
def escapeChar (c : Char) : List Char :=
  if c == dquoteC then [bslashC, dquoteC]
  else if c == bslashC then [bslashC, bslashC]
  else if c.toNat < 32 then
    [bslashC, 'u', '0', '0', hexDigitChar (c.toNat / 16), hexDigitChar (c.toNat % 16)]
  else [c]

/-- Quoted, escaped JSON form of a decoded string. -/
def quoteString (s : String) : String :=
  String.mk (dquoteC :: (s.data.flatMap escapeChar ++ [dquoteC]))

mutual

/-- Modelled from the spec: the external reader's re-serialisation of a
matched node to JSON text (section 6) — JSON-equivalent to the source span,
not byte-identical; this model emits the canonical no-whitespace form,
keeping field order and numeric literal text. -/
def serialize : Json → String
  | .null => "null"
  | .bool b => if b then "true" else "false"
  | .num raw => raw
  | .str s => quoteString s
  | .arr items => "[" ++ serializeItems items ++ "]"
  | .obj fields => String.singleton obraceC ++ serializeFields fields ++ String.singleton cbraceC

/-- Comma-joined serialisation of array elements. -/
def serializeItems : List Json → String
  | [] => ""
  | [v] => serialize v
  | v :: vs => serialize v ++ "," ++ serializeItems vs

/-- Comma-joined serialisation of object members. -/
def serializeFields : List (String × Json) → String
  | [] => ""
  | [(k, v)] => quoteString k ++ ":" ++ serialize v
  | (k, v) :: fs => quoteString k ++ ":" ++ serialize v ++ "," ++ serializeFields fs

end

/-- Strip leading and trailing whitespace of a path, per section 4.1. -/
def trimChars (cs : List Char) : List Char :=
  ((cs.dropWhile wsChar).reverse.dropWhile wsChar).reverse

/-- Characters an unquoted dot-segment token may absorb: everything up to
the next dot or opening bracket (section 4.1's lenient ident rule). -/
def dotTokenChar (c : Char) : Bool :=
  !(c == '.' || c == '[')

/-- Modelled from the spec: classification of a bare (unquoted) token,
section 4.1's disambiguation rules.  A lone star is the wildcard; an
all-digit token is the dual match (array index or object key); anything
else is a literal key. -/
def tokenSelector (tok : List Char) : Selector :=
  if tok == ['*'] then .wildcard
  else if !tok.isEmpty && tok.all digitChar then .childByNameOrIndex (String.mk tok)
  else .childByName (String.mk tok)

/-- Content of a quoted bracket token up to its closing quote.  A
backslash escape contributes the escaped character itself to the key (the
backslash is dropped), so a quoted key with escaped quotes or backslashes
matches the document key as the reader decodes it — the behaviour the
escaped-key unit tests pin (spec section 4.1's aside that escapes are kept
verbatim disagrees with those tests, and the tests win). -/
def scanQuotedKey (q : Char) : List Char → Option (List Char × List Char)
  | [] => none
  | c :: cs =>
    if c == q then some ([], cs)
    else if c == bslashC then
      match cs with
      | [] => none
      | d :: cs2 =>
        match scanQuotedKey q cs2 with
        | some (t, r) => some (d :: t, r)
        | none => none
    else
      match scanQuotedKey q cs with
      | some (t, r) => some (c :: t, r)
      | none => none

/-- Modelled from the spec: a bracket segment after its opening bracket
(section 4.1).  A single- or double-quoted body always compiles to a
literal key lookup (quoted digits never index an array; a quoted star is
the literal key star); an unquoted body is classified by `tokenSelector`.
A missing closing bracket or an empty body is a compile failure. -/
def bracketSelector (cs : List Char) : Option (Selector × List Char) :=
  match cs with
  | [] => none
  | c :: r =>
    if c == dquoteC || c == squoteC then
      match scanQuotedKey c r with
      | some (t, ']' :: r2) => some (.childByName (String.mk t), r2)
      | _ => none
    else
      match (c :: r).span (fun d => !(d == ']')) with
      | (tok, ']' :: r2) =>
        if tok.isEmpty then none else some (tokenSelector tok, r2)
      | _ => none

/-- Modelled from the spec: the segment grammar of section 4.1, compiling
the text after the root anchor into the selector program.  A double dot
emits RecursiveDescent followed by the selector of the member that follows
it; a dot immediately followed by a bracket segment is accepted and reads
exactly as the bracket segment alone (behaviour pinned by the unit tests);
a trailing bare dot, an unterminated bracket, or any leftover text that
starts no segment is a compile failure. -/
def parseSegs : Nat → List Char → Option (List Selector)
  | _, [] => some []
  | 0, _ => none
  | fuel + 1, '.' :: '.' :: rest =>
    match rest with
    | '[' :: r1 =>
      match bracketSelector r1 with
      | some (sel, r2) =>
        match parseSegs fuel r2 with
        | some ss => some (.recursiveDescent :: sel :: ss)
        | none => none
      | none => none
    | _ =>
      match rest.span dotTokenChar with
      | ([], _) => none
      | (tok, r1) =>
        match parseSegs fuel r1 with
        | some ss => some (.recursiveDescent :: tokenSelector tok :: ss)
        | none => none
  | fuel + 1, '.' :: '[' :: rest =>
    match bracketSelector rest with
    | some (sel, r1) =>
      match parseSegs fuel r1 with
      | some ss => some (sel :: ss)
      | none => none
    | none => none
  | fuel + 1, '.' :: rest =>
    match rest.span dotTokenChar with
    | ([], _) => none
    | (tok, r1) =>
      match parseSegs fuel r1 with
      | some ss => some (tokenSelector tok :: ss)
      | none => none
  | fuel + 1, '[' :: rest =>
    match bracketSelector rest with
    | some (sel, r1) =>
      match parseSegs fuel r1 with
      | some ss => some (sel :: ss)
      | none => none
    | none => none
  | _ + 1, _ => none

/-- Modelled from the spec: `compile(path) -> PathProgram` of section 4.1.
Leading and trailing whitespace is skipped; the path must then be anchored
at the root dollar; the rest is the segment sequence.  None is the
InvalidPathError of section 7 (empty or whitespace-only input, a missing or
duplicated dollar, a trailing bare dot, an unterminated bracket, trailing
unrecognised text). -/
def compilePath (path : String) : Option (List Selector) :=
  match trimChars path.toList with
  | '$' :: rest => parseSegs (rest.length + 1) rest
  | _ => none

/-- First object field with the given key (first occurrence wins on
duplicate keys, section 4.2). -/
def lookupField (key : String) : List (String × Json) → Option Json
  | [] => none
  | (k, v) :: fs => if k == key then some v else lookupField key fs

/-- Immediate children of a node: array elements in index order, object
field values in declaration order, nothing on a scalar (section 4.2's
wildcard semantics). -/
def childValues : Json → List Json
  | .arr items => items
  | .obj fields => fields.map (fun f => f.2)
  | _ => []

mutual

/-- Modelled from the spec: RecursiveDescent emits every node of the
pre-order subtree rooted at the current context — the node itself first,
then each child's subtree in document order (section 3's data model;
orders pinned by the recursive-descent unit tests). -/
def descend : Json → List Json
  | .arr items => .arr items :: descendItems items
  | .obj fields => .obj fields :: descendFields fields
  | v => [v]

/-- Pre-order subtrees of a list of array elements, concatenated. -/
def descendItems : List Json → List Json
  | [] => []
  | v :: vs => descend v ++ descendItems vs

/-- Pre-order subtrees of object field values, concatenated. -/
def descendFields : List (String × Json) → List Json
  | [] => []
  | (_, v) :: fs => descend v ++ descendFields fs

end

/-- Array index denoted by a dual-match token: the token read as a decimal
number, when it is all digits. -/
def tokenIndex (token : String) : Option Nat :=
  if !token.data.isEmpty && token.data.all digitChar then some (digitsVal token.data)
  else none

/-- Modelled from the spec: the per-selector semantics of section 4.2.
Every selector yields the list of context nodes it produces on the current
node; a type mismatch or an absent field or index yields zero matches, not
an error. -/
def selectStep : Selector → Json → List Json
  | .childByName key, .obj fields => (lookupField key fields).toList
  | .childByName _, _ => []
  | .childByIndex i, .arr items => (items.get? i).toList
  | .childByIndex _, _ => []
  | .childByNameOrIndex token, .arr items =>
    match tokenIndex token with
    | some i => (items.get? i).toList
    | none => []
  | .childByNameOrIndex token, .obj fields => (lookupField token fields).toList
  | .childByNameOrIndex _, _ => []
  | .wildcard, v => childValues v
  | .recursiveDescent, v => descend v

/-- Modelled from the spec: the evaluator of section 4.2 — selectors apply
strictly left to right; when a selector yields several context nodes the
remaining selectors apply independently to each, in production order, and
the results concatenate without deduplication; at the end of the program
the current node is a match. -/
def evalProgram : List Selector → Json → List Json
  | [], v => [v]
  | sel :: rest, v => (selectStep sel v).flatMap (evalProgram rest)

/-- A selector that cannot multiply matches (anything but wildcard and
recursive descent). -/
def selectorDefinite : Selector → Bool
  | .wildcard => false
  | .recursiveDescent => false
  | _ => true

/-- Modelled from the spec: definiteness of a program (section 3) — no
wildcard and no recursive descent, hence at most one match. -/
def isDefinite (prog : List Selector) : Bool :=
  prog.all selectorDefinite

/-- Modelled from the spec: `extract(document, path, consumer)` of section
6, with the collecting consumer the unit tests use (re-serialise every
matched node, in match order).  A path that fails to compile surfaces as
the InvalidPathError thrown at extractor acquisition; a malformed document
surfaces as the JsonParseError status; zero matches is a success with an
empty list. -/
def extract (json path : String) : Except ExtractError (List String) :=
  match compilePath path with
  | none => .error .invalidPath
  | some prog =>
    match parseJson json with
    | none => .error .jsonParseError
    | some doc => .ok ((evalProgram prog doc).map serialize)

/-- Modelled from the spec: the scalar projection of one matched node
(section 4.3): null and complex values yield no value; a boolean yields the
literal true/false text; a string its decoded content; a number its
canonical numeric text. -/
def scalarValue : Json → Option String
  | .null => none
  | .bool b => some (if b then "true" else "false")
  | .num raw => some raw
  | .str s => some s
  | .arr _ => none
  | .obj _ => none

/-- Modelled from the spec: scalar-extraction mode (section 4.3) — it wraps
the general evaluator and accepts only the first consumer invocation; a
second invocation discards the result and the whole extraction yields no
value, as does an empty match set. -/
def extractScalar (json path : String) : Except ExtractError (Option String) :=
  match compilePath path with
  | none => .error .invalidPath
  | some prog =>
    match parseJson json with
    | none => .error .jsonParseError
    | some doc =>
      match evalProgram prog doc with
      | [v] => .ok (scalarValue v)
      | _ => .ok none

/-- Characters that may legitimately follow a complete JSON value inside a
larger document: a separating comma, a closing bracket, or a closing
brace. -/
def stopChar (c : Char) : Bool :=
  c == ',' || c == ']' || c == cbraceC

/-- The input after a serialised value in the roundtrip arguments: either
nothing or a stop character first. -/
def stopOrEnd : List Char → Bool
  | [] => true
  | c :: _ => stopChar c

/-- The first character of the input, if any, fails the predicate. -/
def headFails (p : Char → Bool) : List Char → Prop
  | [] => True
  | c :: _ => p c = false

/-- Shape of the literal text of a JSON number, exactly as `numberToken`
builds it: an optional minus, nonempty integer digits, an optional
fraction of a dot and nonempty digits, and an optional exponent of an e or
E marker, an optional sign and nonempty digits. -/
def numShape (cs : List Char) : Prop :=
  ∃ sgn ds frac exp : List Char,
    cs = sgn ++ ds ++ frac ++ exp ∧
    (sgn = [] ∨ sgn = ['-']) ∧
    ds ≠ [] ∧ ds.all digitChar = true ∧
    (frac = [] ∨ ∃ fs, frac = '.' :: fs ∧ fs ≠ [] ∧ fs.all digitChar = true) ∧
    (exp = [] ∨ ∃ e sg es, (e = 'e' ∨ e = 'E') ∧
      (sg = [] ∨ sg = ['+'] ∨ sg = ['-']) ∧
      es ≠ [] ∧ es.all digitChar = true ∧ exp = e :: (sg ++ es))

/-- Well-formed JSON trees: exactly the trees the modelled reader can
produce — every numeric node carries literal text of the number shape. -/
inductive WfJson : Json → Prop where
  | null : WfJson .null
  | bool (b : Bool) : WfJson (.bool b)
  | num (raw : String) (h : numShape raw.data) : WfJson (.num raw)
  | str (s : String) : WfJson (.str s)
  | arr (items : List Json) (h : ∀ v ∈ items, WfJson v) : WfJson (.arr items)
  | obj (fields : List (String × Json)) (h : ∀ kv ∈ fields, WfJson kv.2) :
      WfJson (.obj fields)

mutual

/-- Fuel measure for the parse-of-serialise argument: how many parser call
frames a value consumes. -/
def nodeCount : Json → Nat
  | .arr items => 1 + nodeCountItems items
  | .obj fields => 1 + nodeCountFields fields
  | _ => 1

/-- Fuel measure of an element list. -/
def nodeCountItems : List Json → Nat
  | [] => 0
  | v :: vs => 1 + nodeCount v + nodeCountItems vs

/-- Fuel measure of a member list. -/
def nodeCountFields : List (String × Json) → Nat
  | [] => 0
  | kv :: fs => 1 + nodeCount kv.2 + nodeCountFields fs

end

/-- Test document of the dual-match special cases: an object whose only key
is the digit string 0, holding an object with a bar field. -/
def docDualObj : String := "\x7b\"0\" : \x7b\"bar\" : [1, 2]\x7d\x7d"

/-- Test document of the quoted-digit special cases: a two-element array of
objects. -/
def docDualArr : String := "[\x7b\"bar\" : [1, 2]\x7d, \x7b\"foo\" : [3, 4]\x7d]"

/-- Test document of the recursive-descent scenarios. -/
def docRecursive : String :=
  "\x7b\"object\": \x7b\"array\": [0,1,2], \"object\": \x7b\"1\": \"value\", \"array\": [4,5,6], \"foo\": \"bar\"\x7d\x7d\x7d"

/-- Test document with the digit keys 0, 1, 2. -/
def docDigitsObj : String := "\x7b\"0\" : 0, \"1\" : 1, \"2\" : 2 \x7d"

/-- Test document: the three-element array 0, 1, 2. -/
def docDigitsArr : String := "[0, 1, 2]"

/-- Test document pairing an object and an array at the same depth. -/
def docMixed : String := "[\x7b\"0\": \"obj\"\x7d, [\"array0\", \"array1\"]]"

/-- Test document for prefix composability: a store with fruit. -/
def docStore : String :=
  "\x7b\"store\": \x7b\"fruit\": [\x7b\"weight\": 8, \"type\": \"apple\"\x7d, \x7b\"weight\": 9, \"type\": \"pear\"\x7d], \"owner\": \"amy\"\x7d\x7d"

/-- Empty-object document. -/
def docEmptyObj : String := "\x7b\x7d"

/-- Malformed document: the object key string swallows the colon, leaving
garbage where the colon should be. -/
def docBadKey : String := "\x7b\"foo: \"bar\"\x7d"

/-- Malformed document: unterminated string value. -/
def docBadValue : String := "\x7b\"foo\": \"bar\x7d"

/-- Malformed document: unterminated string inside an array. -/
def docBadArray : String := "\x7b\"foo\": [\"bar\", \"baz]\x7d"

/-- Scalar document: null. -/
def docNull : String := "null"

/-- Scalar document: true. -/
def docTrue : String := "true"

/-- Scalar document: false. -/
def docFalse : String := "false"

/-- Scalar document: a string with a hexadecimal escape for the control
character 0x01. -/
def docEscStr : String := "\"ab\\u0001c\""

/-- Scalar document: the number 123. -/
def docNum : String := "123"

/-- Small object document. -/
def docSmallObj : String := "\x7b\"a\": 1\x7d"

/-- Path: dot digit then bar. -/
def pathDotZeroBar : String := "$.0.bar"

/-- Path: unquoted bracket digit then bar. -/
def pathBracketZeroBar : String := "$[0].bar"

/-- Path: double-quoted bracket digit then bar. -/
def pathDQuoteZeroBar : String := "$[\"0\"].bar"

/-- Path: single-quoted bracket digit then bar. -/
def pathSQuoteZeroBar : String := "$[\x270\x27].bar"

/-- Path: dot followed by a single-quoted token then bar. -/
def pathDotQuoteZeroBar : String := "$.\x270\x27.bar"

/-- Path: unquoted bracket digit alone. -/
def pathBracketZero : String := "$[0]"

/-- Path: dot digit alone. -/
def pathDotZero : String := "$.0"

/-- Path: unquoted bracket digit one. -/
def pathBracketOne : String := "$[1]"

/-- Path: dot digit one. -/
def pathDotOne : String := "$.1"

/-- Path: recursive descent to the key array. -/
def pathDescArray : String := "$..array"

/-- Path: chained recursive descents, object then the digit key one. -/
def pathDescObjOne : String := "$..object..1"

/-- Invalid path: empty. -/
def pathEmpty : String := ""

/-- Invalid path: whitespace only. -/
def pathWsOnly : String := "  \t\n "

/-- Invalid path: duplicated root anchor. -/
def pathDoubleDollar : String := "$$"

/-- Invalid path: not anchored at the root. -/
def pathNoDollar : String := "."

/-- Invalid path: trailing bare dot. -/
def pathBareDot : String := "$."

/-- Invalid path: unterminated bracket. -/
def pathOpenBracket : String := "$.store.book["

/-- Invalid path: trailing unrecognised characters after valid segments. -/
def pathTrailingJunk : String := "$.bar[2]-1"

/-- Path: the field foo. -/
def pathFoo : String := "$.foo"

/-- Path: the field foo then index zero. -/
def pathFooZero : String := "$.foo[0]"

/-- Path: the root alone. -/
def pathRoot : String := "$"

/-- Path: wildcard over the root array. -/
def pathStarOnly : String := "$[*]"

/-- Path: the field store. -/
def pathStore : String := "$.store"

/-- Path: the field fruit. -/
def pathFruit : String := "$.fruit"

/-- Path: store then fruit. -/
def pathStoreFruit : String := "$.store.fruit"

/-- Path with a dot before a bracket segment, after an index. -/
def pathBookDotStar : String := "$.store.book[0].[*]"

/-- The same path without the dot before the bracket. -/
def pathBookStar : String := "$.store.book[0][*]"

/-- Path: wildcard, then dot before a bracket index. -/
def pathStarDotZero : String := "$.*.[0]"

/-- The same path without the dot before the bracket. -/
def pathStarZero : String := "$.*[0]"

/-- Path: wildcard, then dot before a single-quoted bracket key. -/
def pathStarDotQuote : String := "$.*.[\x270\x27]"

/-- The same path without the dot before the bracket. -/
def pathStarQuote : String := "$.*[\x270\x27]"

/-- Re-extraction: run the first path, then run the second path on the
single serialised match the first produced (the formulation of the
composability property at the text level). -/
def reExtract (json pathA pathB : String) : Except ExtractError (List String) :=
  match extract json pathA with
  | .ok [s] => extract s pathB
  | r => r

/-- Concatenating selector programs composes evaluation: running the
joined program equals running the first program and feeding every produced
context node to the second, concatenating in production order. -/
theorem evalProgram_append (progA progB : List Selector) (v : Json) :
    evalProgram (progA ++ progB) v =
      (evalProgram progA v).flatMap (evalProgram progB) := by
  induction progA generalizing v with
  | nil => simp [evalProgram]
  | cons s ss ih =>
    have hf : evalProgram (ss ++ progB) =
        fun u => (evalProgram ss u).flatMap (evalProgram progB) := funext ih
    calc evalProgram ((s :: ss) ++ progB) v
        = (selectStep s v).flatMap (evalProgram (ss ++ progB)) := rfl
      _ = (selectStep s v).flatMap
            (fun u => (evalProgram ss u).flatMap (evalProgram progB)) := by rw [hf]
      _ = ((selectStep s v).flatMap (evalProgram ss)).flatMap (evalProgram progB) :=
          (List.flatMap_assoc _ _ _).symm
      _ = (evalProgram (s :: ss) v).flatMap (evalProgram progB) := rfl


theorem skipWsL_cons {c : Char} (t : List Char) (h : wsChar c = false) :
    skipWsL (c :: t) = c :: t := by
  simp [skipWsL, List.dropWhile_cons, h]

theorem takeWhile_append_of_all (p : Char → Bool) :
    ∀ (ds rest : List Char), ds.all p = true → headFails p rest →
      (ds ++ rest).takeWhile p = ds := by
  intro ds
  induction ds with
  | nil =>
    intro rest _ hh
    cases rest with
    | nil => rfl
    | cons c t =>
      simp only [headFails] at hh
      simp [List.takeWhile_cons, hh]
  | cons d ds ih =>
    intro rest h hh
    simp only [List.all_cons, Bool.and_eq_true] at h
    simp [List.takeWhile_cons, h.1, ih rest h.2 hh]

theorem dropWhile_append_of_all (p : Char → Bool) :
    ∀ (ds rest : List Char), ds.all p = true → headFails p rest →
      (ds ++ rest).dropWhile p = rest := by
  intro ds
  induction ds with
  | nil =>
    intro rest _ hh
    cases rest with
    | nil => rfl
    | cons c t =>
      simp only [headFails] at hh
      simp [List.dropWhile_cons, hh]
  | cons d ds ih =>
    intro rest h hh
    simp only [List.all_cons, Bool.and_eq_true] at h
    simp [List.dropWhile_cons, h.1, ih rest h.2 hh]

theorem span_append_of_all (p : Char → Bool) (ds rest : List Char)
    (h : ds.all p = true) (hh : headFails p rest) :
    (ds ++ rest).span p = (ds, rest) := by
  rw [List.span_eq_take_drop, takeWhile_append_of_all p ds rest h hh,
      dropWhile_append_of_all p ds rest h hh]

theorem digit_ne {c : Char} (h : digitChar c = true) {d : Char}
    (hd : digitChar d = false) : c ≠ d := by
  intro he
  rw [he, hd] at h
  exact Bool.false_ne_true h

theorem digit_beq_false {c : Char} (h : digitChar c = true) {d : Char}
    (hd : digitChar d = false) : (c == d) = false :=
  beq_eq_false_iff_ne.mpr (digit_ne h hd)

theorem wsChar_of_digit {c : Char} (h : digitChar c = true) : wsChar c = false := by
  simp only [wsChar, Bool.or_eq_false_iff]
  exact ⟨⟨⟨digit_beq_false h (by decide), digit_beq_false h (by decide)⟩,
    digit_beq_false h (by decide)⟩, digit_beq_false h (by decide)⟩

theorem stopChar_of_digit {c : Char} (h : digitChar c = true) : stopChar c = false := by
  simp only [stopChar, Bool.or_eq_false_iff]
  exact ⟨⟨digit_beq_false h (by decide), digit_beq_false h (by decide)⟩,
    digit_beq_false h (by decide)⟩

theorem stop_facts {c : Char} (h : stopChar c = true) :
    c = ',' ∨ c = ']' ∨ c = cbraceC := by
  simp only [stopChar, Bool.or_eq_true, beq_iff_eq] at h
  tauto

theorem headFails_digit_of_stop {rest : List Char} (h : stopOrEnd rest = true) :
    headFails digitChar rest := by
  cases rest with
  | nil => trivial
  | cons c t =>
    simp only [stopOrEnd] at h
    rcases stop_facts h with hc | hc | hc <;> subst hc <;>
      simp only [headFails] <;> decide

theorem hexDigitVal_hexDigitChar {n : Nat} (h : n < 16) :
    hexDigitVal (hexDigitChar n) = some n := by
  interval_cases n <;> decide

theorem escapeChar_plain {c : Char} (hq : (c == dquoteC) = false)
    (hb : (c == bslashC) = false) (hc : ¬ c.toNat < 32) : escapeChar c = [c] := by
  simp [escapeChar, hq, hb, hc]

theorem stringBody_escape :
    ∀ (t rest : List Char),
      stringBody (t.flatMap escapeChar ++ dquoteC :: rest) = some (t, rest) := by
  intro t
  induction t with
  | nil =>
    intro rest
    rw [stringBody.eq_def]
    simp
  | cons c t ih =>
    intro rest
    simp only [List.flatMap_cons, List.append_assoc]
    by_cases hq : c = dquoteC
    · subst hq
      have he : escapeChar dquoteC = [bslashC, dquoteC] := rfl
      rw [he]
      simp only [List.cons_append, List.nil_append]
      rw [stringBody.eq_def]
      simp only [(by decide : (bslashC == dquoteC) = false),
        (by decide : (bslashC == bslashC) = true),
        (by decide : (dquoteC == 'u') = false),
        (by decide : escapeCode dquoteC = some dquoteC),
        Bool.false_eq_true, if_false, if_true, ite_true, ite_false]
      rw [ih rest]
    · by_cases hb : c = bslashC
      · subst hb
        have he : escapeChar bslashC = [bslashC, bslashC] := rfl
        rw [he]
        simp only [List.cons_append, List.nil_append]
        rw [stringBody.eq_def]
        simp only [(by decide : (bslashC == dquoteC) = false),
          (by decide : (bslashC == bslashC) = true),
          (by decide : (bslashC == 'u') = false),
          (by decide : escapeCode bslashC = some bslashC),
          Bool.false_eq_true, if_false, if_true, ite_true, ite_false]
        rw [ih rest]
      · by_cases hctl : c.toNat < 32
        · have he : escapeChar c =
              [bslashC, 'u', '0', '0', hexDigitChar (c.toNat / 16), hexDigitChar (c.toNat % 16)] := by
            simp [escapeChar, beq_eq_false_iff_ne.mpr hq, beq_eq_false_iff_ne.mpr hb, hctl]
          rw [he]
          simp only [List.cons_append, List.nil_append]
          rw [stringBody.eq_def]
          simp only [(by decide : (bslashC == dquoteC) = false),
            (by decide : (bslashC == bslashC) = true),
            (by decide : ('u' == 'u') = true),
            (by decide : hexDigitVal '0' = some 0),
            hexDigitVal_hexDigitChar (show c.toNat / 16 < 16 by omega),
            hexDigitVal_hexDigitChar (show c.toNat % 16 < 16 by omega),
            Bool.false_eq_true, if_false, if_true, ite_true, ite_false]
          rw [ih rest]
          have hval : ((0 * 16 + 0) * 16 + c.toNat / 16) * 16 + c.toNat % 16 = c.toNat := by
            omega
          rw [hval, Char.ofNat_toNat]
        · rw [escapeChar_plain (beq_eq_false_iff_ne.mpr hq) (beq_eq_false_iff_ne.mpr hb) hctl]
          simp only [List.cons_append, List.nil_append]
          rw [stringBody.eq_def]
          simp only [beq_eq_false_iff_ne.mpr hq, beq_eq_false_iff_ne.mpr hb,
            Bool.false_eq_true, if_false, ite_false]
          rw [ih rest]

theorem all_digit_head {d : Char} {ds : List Char}
    (h : (d :: ds).all digitChar = true) : digitChar d = true := by
  simp only [List.all_cons, Bool.and_eq_true] at h
  exact h.1

theorem all_digit_tail {d : Char} {ds : List Char}
    (h : (d :: ds).all digitChar = true) : ds.all digitChar = true := by
  simp only [List.all_cons, Bool.and_eq_true] at h
  exact h.2

theorem takeDigits_append (ds rest : List Char) (h : ds.all digitChar = true)
    (hh : headFails digitChar rest) : takeDigits (ds ++ rest) = (ds, rest) := by
  rw [takeDigits, span_append_of_all digitChar ds rest h hh]

theorem numberExp_complete (acc sg es rest : List Char)
    (hsg : sg = [] ∨ sg = ['+'] ∨ sg = ['-'])
    (hes : es ≠ []) (hd : es.all digitChar = true)
    (hstop : stopOrEnd rest = true) :
    numberExp acc (sg ++ es ++ rest) = some (acc ++ sg ++ es, rest) := by
  have hf : headFails digitChar rest := headFails_digit_of_stop hstop
  obtain ⟨d, ds', rfl⟩ : ∃ d ds', es = d :: ds' := by
    cases es with
    | nil => exact absurd rfl hes
    | cons d ds' => exact ⟨d, ds', rfl⟩
  have hd1 : digitChar d = true := all_digit_head hd
  have hdp : d ≠ '+' := digit_ne hd1 (by decide)
  have hdm : d ≠ '-' := digit_ne hd1 (by decide)
  rcases hsg with rfl | rfl | rfl
  · simp only [List.nil_append, List.cons_append]
    have hsign : (match d :: (ds' ++ rest) with
        | '+' :: r => ((['+'] : List Char), r)
        | '-' :: r => ((['-'] : List Char), r)
        | x => (([] : List Char), d :: (ds' ++ rest))) = ([], d :: (ds' ++ rest)) := by
      split <;> (intros; simp_all)
    simp only [numberExp, hsign]
    rw [← List.cons_append, takeDigits_append (d :: ds') rest hd hf]
  · simp only [numberExp, List.cons_append, List.nil_append]
    rw [← List.cons_append, takeDigits_append (d :: ds') rest hd hf]
  · simp only [numberExp, List.cons_append, List.nil_append]
    rw [← List.cons_append, takeDigits_append (d :: ds') rest hd hf]

theorem stop_ne {c : Char} (h : stopChar c = true) {d : Char}
    (hd : stopChar d = false) : c ≠ d := by
  intro he
  rw [he, hd] at h
  exact Bool.false_ne_true h

theorem numberTail_complete (acc exp rest : List Char)
    (hexp : exp = [] ∨ ∃ e sg es, (e = 'e' ∨ e = 'E') ∧
      (sg = [] ∨ sg = ['+'] ∨ sg = ['-']) ∧
      es ≠ [] ∧ es.all digitChar = true ∧ exp = e :: (sg ++ es))
    (hstop : stopOrEnd rest = true) :
    numberTail acc (exp ++ rest) = some (acc ++ exp, rest) := by
  rcases hexp with rfl | ⟨e, sg, es, he, hsg, hes, hd, rfl⟩
  · simp only [List.nil_append, List.append_nil]
    cases rest with
    | nil => simp [numberTail]
    | cons c t =>
      have hc : stopChar c = true := by simpa [stopOrEnd] using hstop
      have h1 : c ≠ 'e' := stop_ne hc (by decide)
      have h2 : c ≠ 'E' := stop_ne hc (by decide)
      simp only [numberTail]
      split <;> (intros; simp_all)
  · rcases he with rfl | rfl <;>
    · simp only [List.cons_append, numberTail]
      rw [numberExp_complete _ sg es rest hsg hes hd hstop]
      simp

theorem numberToken_complete (cs rest : List Char) (h : numShape cs)
    (hstop : stopOrEnd rest = true) :
    numberToken (cs ++ rest) = some (cs, rest) := by
  obtain ⟨sgn, ds, frac, exp, rfl, hsgn, hds, hdd, hfrac, hexp⟩ := h
  obtain ⟨d, ds', rfl⟩ : ∃ d ds', ds = d :: ds' := by
    cases ds with
    | nil => exact absurd rfl hds
    | cons d ds' => exact ⟨d, ds', rfl⟩
  have hd1 : digitChar d = true := all_digit_head hdd
  have hf2 : headFails digitChar (exp ++ rest) := by
    rcases hexp with rfl | ⟨e, sg, es, he, hsg, hes, hde, rfl⟩
    · simpa using headFails_digit_of_stop hstop
    · rcases he with rfl | rfl <;> simp only [List.cons_append, headFails] <;> decide
  have hf1 : headFails digitChar (frac ++ (exp ++ rest)) := by
    rcases hfrac with rfl | ⟨fs, rfl, hfs, hfd⟩
    · simpa using hf2
    · simp only [List.cons_append, headFails]; decide
  have hedot : headFails (fun c => c == '.') (exp ++ rest) := by
    rcases hexp with rfl | ⟨e, sg, es, he, hsg, hes, hde, rfl⟩
    · cases rest with
      | nil => trivial
      | cons c t =>
        have hc : stopChar c = true := by simpa [stopOrEnd] using hstop
        simp only [List.nil_append, headFails]
        exact beq_eq_false_iff_ne.mpr (stop_ne hc (by decide))
    · rcases he with rfl | rfl <;> simp only [List.cons_append, headFails] <;> decide
  rcases hsgn with rfl | rfl
  · simp only [List.nil_append, List.append_assoc, List.cons_append]
    have hdm : d ≠ '-' := digit_ne hd1 (by decide)
    have hsign : (match d :: (ds' ++ (frac ++ (exp ++ rest))) with
        | '-' :: r => ((['-'] : List Char), r)
        | x => (([] : List Char), d :: (ds' ++ (frac ++ (exp ++ rest))))) =
        ([], d :: (ds' ++ (frac ++ (exp ++ rest)))) := by
      split <;> (intros; simp_all)
    simp only [numberToken, hsign]
    rw [← List.cons_append, takeDigits_append (d :: ds') _ hdd hf1]
    try dsimp only
    rcases hfrac with rfl | ⟨fs, rfl, hfs, hfd⟩
    · simp only [List.nil_append] at hedot ⊢
      split
      · rename_i r heq
        cases hq : exp ++ rest with
        | nil => rw [hq] at heq; exact absurd heq (by simp)
        | cons c t =>
          rw [hq] at heq hedot
          simp only [headFails] at hedot
          have : c = '.' := (List.cons.inj heq).1
          subst this
          exact absurd hedot (by decide)
      · rw [numberTail_complete (d :: ds') exp rest hexp hstop]
        simp
    · simp only [List.cons_append]
      rw [takeDigits_append fs _ hfd hf2]
      try dsimp only
      cases fs with
      | nil => exact absurd rfl hfs
      | cons f fs2 =>
        try dsimp only
        rw [numberTail_complete _ exp rest hexp hstop]
        simp
  · simp only [List.cons_append, List.append_assoc, List.nil_append]
    simp only [numberToken]
    rw [← List.cons_append, takeDigits_append (d :: ds') _ hdd hf1]
    try dsimp only
    rcases hfrac with rfl | ⟨fs, rfl, hfs, hfd⟩
    · simp only [List.nil_append] at hedot ⊢
      split
      · rename_i r heq
        cases hq : exp ++ rest with
        | nil => rw [hq] at heq; exact absurd heq (by simp)
        | cons c t =>
          rw [hq] at heq hedot
          simp only [headFails] at hedot
          have : c = '.' := (List.cons.inj heq).1
          subst this
          exact absurd hedot (by decide)
      · rw [numberTail_complete _ exp rest hexp hstop]
        simp
    · simp only [List.cons_append]
      rw [takeDigits_append fs _ hfd hf2]
      try dsimp only
      cases fs with
      | nil => exact absurd rfl hfs
      | cons f fs2 =>
        try dsimp only
        rw [numberTail_complete _ exp rest hexp hstop]
        simp

theorem takeDigits_all {cs ds cs2 : List Char} (h : takeDigits cs = (ds, cs2)) :
    ds.all digitChar = true := by
  have h1 : ds = cs.takeWhile digitChar := by
    have h2 := congrArg Prod.fst h
    simpa [takeDigits, List.span_eq_take_drop] using h2.symm
  rw [h1]
  exact List.all_takeWhile

theorem sign_match_cases (cs : List Char) :
    (match cs with
     | '+' :: r => ((['+'] : List Char), r)
     | '-' :: r => ((['-'] : List Char), r)
     | x => (([] : List Char), cs)).1 = [] ∨
    (match cs with
     | '+' :: r => ((['+'] : List Char), r)
     | '-' :: r => ((['-'] : List Char), r)
     | x => (([] : List Char), cs)).1 = ['+'] ∨
    (match cs with
     | '+' :: r => ((['+'] : List Char), r)
     | '-' :: r => ((['-'] : List Char), r)
     | x => (([] : List Char), cs)).1 = ['-'] := by
  split <;> simp

theorem numberExp_shape {acc cs t r : List Char} (h : numberExp acc cs = some (t, r)) :
    ∃ sg es, (sg = [] ∨ sg = ['+'] ∨ sg = ['-']) ∧ es ≠ [] ∧ es.all digitChar = true ∧
      t = acc ++ sg ++ es := by
  simp only [numberExp] at h
  split at h
  · exact absurd h (by simp)
  · rename_i p ds cs2 hne heq
    rw [Option.some.injEq, Prod.mk.injEq] at h
    obtain ⟨ht, hr⟩ := h
    exact ⟨_, ds, sign_match_cases cs, hne, takeDigits_all heq, ht.symm⟩

theorem numberTail_shape {acc cs t r : List Char} (h : numberTail acc cs = some (t, r)) :
    ∃ exp, t = acc ++ exp ∧ (exp = [] ∨ ∃ e sg es, (e = 'e' ∨ e = 'E') ∧
      (sg = [] ∨ sg = ['+'] ∨ sg = ['-']) ∧
      es ≠ [] ∧ es.all digitChar = true ∧ exp = e :: (sg ++ es)) := by
  simp only [numberTail] at h
  split at h
  · obtain ⟨sg, es, hsg, hes, hd, ht⟩ := numberExp_shape h
    exact ⟨'e' :: (sg ++ es), by simp [ht, List.append_assoc],
      Or.inr ⟨'e', sg, es, Or.inl rfl, hsg, hes, hd, rfl⟩⟩
  · obtain ⟨sg, es, hsg, hes, hd, ht⟩ := numberExp_shape h
    exact ⟨'E' :: (sg ++ es), by simp [ht, List.append_assoc],
      Or.inr ⟨'E', sg, es, Or.inr rfl, hsg, hes, hd, rfl⟩⟩
  · rw [Option.some.injEq, Prod.mk.injEq] at h
    exact ⟨[], by simp [h.1.symm], Or.inl rfl⟩

theorem neg_match_cases (cs : List Char) :
    (match cs with
     | '-' :: r => ((['-'] : List Char), r)
     | x => (([] : List Char), cs)).1 = [] ∨
    (match cs with
     | '-' :: r => ((['-'] : List Char), r)
     | x => (([] : List Char), cs)).1 = ['-'] := by
  split <;> simp

theorem numberToken_shape {cs t r : List Char} (h : numberToken cs = some (t, r)) :
    numShape t := by
  simp only [numberToken] at h
  split at h
  · exact absurd h (by simp)
  · rename_i p ds cs2 hne heq
    split at h
    · split at h
      · exact absurd h (by simp)
      · rename_i p2 fs cs3 hfs hfq
        obtain ⟨exp, ht, hexp⟩ := numberTail_shape h
        refine ⟨_, ds, '.' :: fs, exp, ?_, neg_match_cases cs, hne,
          takeDigits_all heq, Or.inr ⟨fs, rfl, hfs, takeDigits_all hfq⟩, hexp⟩
        simp [ht, List.append_assoc]
    · obtain ⟨exp, ht, hexp⟩ := numberTail_shape h
      refine ⟨_, ds, [], exp, ?_, neg_match_cases cs, hne,
        takeDigits_all heq, Or.inl rfl, hexp⟩
      simp [ht, List.append_assoc]

theorem jsonVal_succ (f : Nat) (cs : List Char) :
    jsonVal (f + 1) cs =
      match skipWsL cs with
      | 'n' :: 'u' :: 'l' :: 'l' :: r => some (.null, r)
      | 't' :: 'r' :: 'u' :: 'e' :: r => some (.bool true, r)
      | 'f' :: 'a' :: 'l' :: 's' :: 'e' :: r => some (.bool false, r)
      | '[' :: r =>
        match skipWsL r with
        | ']' :: r2 => some (.arr [], r2)
        | r2 =>
          match jsonElems f r2 with
          | some (vs, r3) =>
            match skipWsL r3 with
            | ']' :: r4 => some (.arr vs, r4)
            | _ => none
          | none => none
      | c :: r =>
        if c == dquoteC then
          match stringBody r with
          | some (t, r2) => some (.str (String.mk t), r2)
          | none => none
        else if c == obraceC then
          match skipWsL r with
          | [] => none
          | d :: r2 =>
            if d == cbraceC then some (.obj [], r2)
            else
              match jsonMembers f (d :: r2) with
              | some (fs, r3) =>
                match skipWsL r3 with
                | e :: r4 => if e == cbraceC then some (.obj fs, r4) else none
                | [] => none
              | none => none
        else
          match numberToken (c :: r) with
          | some (t, r2) => some (.num (String.mk t), r2)
          | none => none
      | [] => none := by
  rw [jsonVal.eq_def]

theorem jsonElems_succ (f : Nat) (cs : List Char) :
    jsonElems (f + 1) cs =
      match jsonVal f cs with
      | some (v, r) =>
        match skipWsL r with
        | ',' :: r2 =>
          match jsonElems f r2 with
          | some (vs, r3) => some (v :: vs, r3)
          | none => none
        | r2 => some ([v], r2)
      | none => none := by
  rw [jsonElems.eq_def]

theorem jsonMembers_succ (f : Nat) (cs : List Char) :
    jsonMembers (f + 1) cs =
      match skipWsL cs with
      | [] => none
      | c :: r =>
        if c == dquoteC then
          match stringBody r with
          | some (k, r2) =>
            match skipWsL r2 with
            | ':' :: r3 =>
              match jsonVal f r3 with
              | some (v, r4) =>
                match skipWsL r4 with
                | ',' :: r5 =>
                  match jsonMembers f r5 with
                  | some (fs, r6) => some ((String.mk k, v) :: fs, r6)
                  | none => none
                | r5 => some ([(String.mk k, v)], r5)
              | none => none
            | _ => none
          | none => none
        else none := by
  rw [jsonMembers.eq_def]

theorem jsonParse_wf : ∀ fuel : Nat,
    (∀ cs v r, jsonVal fuel cs = some (v, r) → WfJson v) ∧
    (∀ cs vs r, jsonElems fuel cs = some (vs, r) → ∀ v ∈ vs, WfJson v) ∧
    (∀ cs fs r, jsonMembers fuel cs = some (fs, r) → ∀ kv ∈ fs, WfJson kv.2) := by
  intro fuel
  induction fuel with
  | zero =>
    refine ⟨fun cs v r h => ?_, fun cs vs r h => ?_, fun cs fs r h => ?_⟩
    · rw [jsonVal.eq_def] at h
      exact absurd h (by simp)
    · rw [jsonElems.eq_def] at h
      exact absurd h (by simp)
    · rw [jsonMembers.eq_def] at h
      exact absurd h (by simp)
  | succ f ih =>
    obtain ⟨ihv, ihe, ihm⟩ := ih
    refine ⟨fun cs v r h => ?_, fun cs vs r h => ?_, fun cs fs r h => ?_⟩
    · rw [jsonVal_succ] at h
      repeat' split at h
      all_goals simp only [Option.some.injEq, Prod.mk.injEq, reduceCtorEq] at h
      all_goals obtain ⟨rfl, rfl⟩ := h
      all_goals first
        | exact .null
        | exact .bool _
        | exact .str _
        | exact .arr _ (fun u hu => absurd hu (List.not_mem_nil u))
        | exact .obj _ (fun kv hkv => absurd hkv (List.not_mem_nil kv))
        | exact .num _ (numberToken_shape (by assumption))
        | exact .arr _ (ihe _ _ _ (by assumption))
        | exact .obj _ (ihm _ _ _ (by assumption))
    · rw [jsonElems_succ] at h
      repeat' split at h
      all_goals simp only [Option.some.injEq, Prod.mk.injEq, reduceCtorEq] at h
      all_goals obtain ⟨rfl, rfl⟩ := h
      all_goals intro u hu
      all_goals rcases List.mem_cons.mp hu with rfl | hu2
      all_goals first
        | exact ihv _ _ _ (by assumption)
        | exact ihe _ _ _ (by assumption) u hu2
        | exact absurd hu2 (List.not_mem_nil u)
    · rw [jsonMembers_succ] at h
      repeat' split at h
      all_goals simp only [Option.some.injEq, Prod.mk.injEq, reduceCtorEq] at h
      all_goals obtain ⟨rfl, rfl⟩ := h
      all_goals intro kv hkv
      all_goals rcases List.mem_cons.mp hkv with rfl | hkv2
      all_goals first
        | exact ihv _ _ _ (by assumption)
        | exact ihm _ _ _ (by assumption) kv hkv2
        | exact absurd hkv2 (List.not_mem_nil kv)

theorem parseJson_wf {s : String} {v : Json} (h : parseJson s = some v) : WfJson v := by
  simp only [parseJson] at h
  split at h
  · rename_i p v0 r heq
    split at h
    · obtain rfl := Option.some.inj h
      exact (jsonParse_wf _).1 _ _ _ heq
    · exact absurd h (by simp)
  · exact absurd h (by simp)

theorem mem_descendItems :
    ∀ {items : List Json} {u : Json},
      u ∈ descendItems items ↔ ∃ v ∈ items, u ∈ descend v := by
  intro items u
  induction items with
  | nil => simp [descendItems]
  | cons v vs ih => simp [descendItems, List.mem_append, ih]

theorem mem_descendFields :
    ∀ {fields : List (String × Json)} {u : Json},
      u ∈ descendFields fields ↔ ∃ kv ∈ fields, u ∈ descend kv.2 := by
  intro fields u
  induction fields with
  | nil => simp [descendFields]
  | cons kv fs ih =>
    obtain ⟨k, w⟩ := kv
    simp [descendFields, List.mem_append, ih]

theorem descend_wf {v : Json} (hv : WfJson v) : ∀ u ∈ descend v, WfJson u := by
  induction hv with
  | null => intro u hu; obtain rfl := List.mem_singleton.mp hu; exact .null
  | bool b => intro u hu; obtain rfl := List.mem_singleton.mp hu; exact .bool b
  | num raw h => intro u hu; obtain rfl := List.mem_singleton.mp hu; exact .num raw h
  | str s2 => intro u hu; obtain rfl := List.mem_singleton.mp hu; exact .str s2
  | arr items h ih =>
    intro u hu
    rcases List.mem_cons.mp hu with rfl | hu2
    · exact .arr items h
    · obtain ⟨w, hw, hu3⟩ := mem_descendItems.mp hu2
      exact ih w hw u hu3
  | obj fields h ih =>
    intro u hu
    rcases List.mem_cons.mp hu with rfl | hu2
    · exact .obj fields h
    · obtain ⟨kv, hkv, hu3⟩ := mem_descendFields.mp hu2
      exact ih kv hkv u hu3

theorem childValues_wf {v : Json} (hv : WfJson v) : ∀ u ∈ childValues v, WfJson u := by
  cases hv with
  | arr items h => exact h
  | obj fields h =>
    intro u hu
    obtain ⟨kv, hkv, rfl⟩ := List.mem_map.mp hu
    exact h kv hkv
  | null => intro u hu; exact absurd hu (List.not_mem_nil u)
  | bool b => intro u hu; exact absurd hu (List.not_mem_nil u)
  | num raw h => intro u hu; exact absurd hu (List.not_mem_nil u)
  | str s2 => intro u hu; exact absurd hu (List.not_mem_nil u)

theorem lookupField_wf :
    ∀ (fields : List (String × Json)) (key : String) (v : Json),
      (∀ kv ∈ fields, WfJson kv.2) → lookupField key fields = some v → WfJson v := by
  intro fields key
  induction fields with
  | nil => intro v _ h; simp [lookupField] at h
  | cons kv fs ih =>
    obtain ⟨k, w⟩ := kv
    intro v hwf h
    rw [lookupField] at h
    split at h
    · obtain rfl := Option.some.inj h
      exact hwf (k, w) (List.mem_cons_self _ _)
    · exact ih v (fun x hx => hwf x (List.mem_cons_of_mem _ hx)) h

theorem mem_option_toList {o : Option Json} {u : Json} (h : u ∈ o.toList) :
    o = some u := by
  cases o with
  | none => exact absurd h (List.not_mem_nil u)
  | some w => rw [List.mem_singleton.mp h]

theorem selectStep_wf {s : Selector} {v : Json} (hwf : WfJson v) :
    ∀ u ∈ selectStep s v, WfJson u := by
  intro u hu
  cases s with
  | childByName key =>
    cases hwf with
    | obj fields h =>
      exact lookupField_wf fields key u h
        (mem_option_toList (show u ∈ (lookupField key fields).toList from hu))
    | null => exact absurd hu (List.not_mem_nil u)
    | bool b => exact absurd hu (List.not_mem_nil u)
    | num raw h => exact absurd hu (List.not_mem_nil u)
    | str s2 => exact absurd hu (List.not_mem_nil u)
    | arr items h => exact absurd hu (List.not_mem_nil u)
  | childByIndex i =>
    cases hwf with
    | arr items h =>
      have hm := mem_option_toList (show u ∈ (items.get? i).toList from hu)
      exact h u (List.get?_mem hm)
    | null => exact absurd hu (List.not_mem_nil u)
    | bool b => exact absurd hu (List.not_mem_nil u)
    | num raw h => exact absurd hu (List.not_mem_nil u)
    | str s2 => exact absurd hu (List.not_mem_nil u)
    | obj fields h => exact absurd hu (List.not_mem_nil u)
  | childByNameOrIndex tok =>
    cases hwf with
    | arr items h =>
      have hu2 : u ∈ (match tokenIndex tok with
          | some i => (items.get? i).toList
          | none => ([] : List Json)) := hu
      cases hti : tokenIndex tok with
      | some i =>
        rw [hti] at hu2
        have hm := mem_option_toList (show u ∈ (items.get? i).toList from hu2)
        exact h u (List.get?_mem hm)
      | none =>
        rw [hti] at hu2
        exact absurd hu2 (List.not_mem_nil u)
    | obj fields h =>
      exact lookupField_wf fields tok u h
        (mem_option_toList (show u ∈ (lookupField tok fields).toList from hu))
    | null => exact absurd hu (List.not_mem_nil u)
    | bool b => exact absurd hu (List.not_mem_nil u)
    | num raw h => exact absurd hu (List.not_mem_nil u)
    | str s2 => exact absurd hu (List.not_mem_nil u)
  | wildcard => exact childValues_wf hwf u hu
  | recursiveDescent => exact descend_wf hwf u hu

theorem evalProgram_wf :
    ∀ (prog : List Selector) (v : Json), WfJson v →
      ∀ u ∈ evalProgram prog v, WfJson u := by
  intro prog
  induction prog with
  | nil =>
    intro v hv u hu
    obtain rfl := List.mem_singleton.mp hu
    exact hv
  | cons s ss ih =>
    intro v hv u hu
    obtain ⟨w, hw, hu2⟩ := List.mem_flatMap.mp hu
    exact ih w (selectStep_wf hv w hw) u hu2

theorem option_toList_len (o : Option Json) : o.toList.length ≤ 1 := by
  cases o <;> simp

theorem selectStep_def_len {s : Selector} (hs : selectorDefinite s = true) (v : Json) :
    (selectStep s v).length ≤ 1 := by
  cases s with
  | wildcard => simp [selectorDefinite] at hs
  | recursiveDescent => simp [selectorDefinite] at hs
  | childByName key =>
    cases v with
    | obj fields => exact option_toList_len _
    | null => exact Nat.zero_le 1
    | bool b => exact Nat.zero_le 1
    | num raw => exact Nat.zero_le 1
    | str s2 => exact Nat.zero_le 1
    | arr items => exact Nat.zero_le 1
  | childByIndex i =>
    cases v with
    | arr items => exact option_toList_len _
    | null => exact Nat.zero_le 1
    | bool b => exact Nat.zero_le 1
    | num raw => exact Nat.zero_le 1
    | str s2 => exact Nat.zero_le 1
    | obj fields => exact Nat.zero_le 1
  | childByNameOrIndex tok =>
    cases v with
    | arr items =>
      show (match tokenIndex tok with
        | some i => (items.get? i).toList
        | none => ([] : List Json)).length ≤ 1
      cases tokenIndex tok with
      | some i => exact option_toList_len _
      | none => exact Nat.zero_le 1
    | obj fields => exact option_toList_len _
    | null => exact Nat.zero_le 1
    | bool b => exact Nat.zero_le 1
    | num raw => exact Nat.zero_le 1
    | str s2 => exact Nat.zero_le 1

theorem evalProgram_def_len :
    ∀ (prog : List Selector) (v : Json), isDefinite prog = true →
      (evalProgram prog v).length ≤ 1 := by
  intro prog
  induction prog with
  | nil => intro v _; exact le_refl 1
  | cons s ss ih =>
    intro v h
    simp only [isDefinite, List.all_cons, Bool.and_eq_true] at h
    have hsel := selectStep_def_len h.1 v
    show ((selectStep s v).flatMap (evalProgram ss)).length ≤ 1
    cases hE : selectStep s v with
    | nil => simp
    | cons u us =>
      rw [hE] at hsel
      simp only [List.length_cons] at hsel
      have hus : us = [] := List.eq_nil_of_length_eq_zero (by omega)
      subst hus
      simp only [List.flatMap_cons, List.flatMap_nil, List.append_nil]
      exact ih u h.2

theorem nodeCount_pos (v : Json) : 1 ≤ nodeCount v := by
  cases v <;> simp [nodeCount]

theorem numShape_head {cs : List Char} (h : numShape cs) :
    ∃ c t, cs = c :: t ∧ (digitChar c = true ∨ c = '-') := by
  obtain ⟨sgn, ds, frac, exp, heq, hsgn, hds, hdd, _, _⟩ := h
  obtain ⟨d, ds', rfl⟩ : ∃ d ds', ds = d :: ds' := by
    cases ds with
    | nil => exact absurd rfl hds
    | cons d ds' => exact ⟨d, ds', rfl⟩
  rcases hsgn with rfl | rfl
  · exact ⟨d, ds' ++ frac ++ exp, by simp [heq], Or.inl (all_digit_head hdd)⟩
  · exact ⟨'-', d :: ds' ++ frac ++ exp, by simp [heq], Or.inr rfl⟩

theorem serialize_head {v : Json} (h : WfJson v) :
    ∃ c t, (serialize v).data = c :: t ∧ wsChar c = false ∧ c ≠ ']' ∧
      (c == cbraceC) = false := by
  cases h with
  | num raw hshape =>
    obtain ⟨c, t, heq, hdig⟩ := numShape_head hshape
    rcases hdig with hd | rfl
    · exact ⟨c, t, heq, wsChar_of_digit hd, digit_ne hd (by decide),
        digit_beq_false hd (by decide)⟩
    · refine ⟨'-', t, heq, ?_, ?_, ?_⟩ <;> decide
  | arr items h =>
    refine ⟨'[', (serializeItems items).data ++ (']' :: []),
      ?_, by decide, by decide, by decide⟩
    show (("[" ++ serializeItems items ++ "]") : String).data = _
    simp [String.data_append]
  | obj fields h =>
    refine ⟨obraceC, (serializeFields fields).data ++ (cbraceC :: []),
      ?_, by decide, by decide, by decide⟩
    show ((String.singleton obraceC ++ serializeFields fields ++ String.singleton cbraceC) :
      String).data = _
    simp [String.data_append, String.singleton]
  | str s2 => refine ⟨dquoteC, _, rfl, ?_, ?_, ?_⟩ <;> decide
  | bool b =>
    cases b
    · refine ⟨'f', _, rfl, ?_, ?_, ?_⟩ <;> decide
    · refine ⟨'t', _, rfl, ?_, ?_, ?_⟩ <;> decide
  | null => refine ⟨'n', _, rfl, ?_, ?_, ?_⟩ <;> decide

theorem nodeCountItems_le (items : List Json)
    (ih : ∀ v ∈ items, nodeCount v ≤ (serialize v).data.length) :
    nodeCountItems items ≤ (serializeItems items).data.length + 1 := by
  induction items with
  | nil => simp [nodeCountItems]
  | cons v vs ihl =>
    have h1 := ih v (List.mem_cons_self _ _)
    cases vs with
    | nil =>
      simp only [nodeCountItems, serializeItems]
      omega
    | cons w ws =>
      have h2 := ihl (fun u hu => ih u (List.mem_cons_of_mem _ hu))
      simp only [nodeCountItems, serializeItems, String.data_append,
        List.length_append, List.length_cons, List.length_nil] at h2 ⊢
      omega

theorem nodeCountFields_le (fields : List (String × Json))
    (ih : ∀ kv ∈ fields, nodeCount kv.2 ≤ (serialize kv.2).data.length) :
    nodeCountFields fields ≤ (serializeFields fields).data.length + 1 := by
  induction fields with
  | nil => simp [nodeCountFields]
  | cons kv fs ihl =>
    obtain ⟨k, v⟩ := kv
    have h1 : nodeCount v ≤ (serialize v).data.length := ih (k, v) (List.mem_cons_self _ _)
    cases fs with
    | nil =>
      simp only [nodeCountFields, serializeFields, String.data_append,
        List.length_append, List.length_cons, List.length_nil]
      omega
    | cons kw fs2 =>
      have h2 := ihl (fun u hu => ih u (List.mem_cons_of_mem _ hu))
      simp only [nodeCountFields, serializeFields, String.data_append,
        List.length_append, List.length_cons, List.length_nil] at h2 ⊢
      omega

theorem nodeCount_le {v : Json} (h : WfJson v) :
    nodeCount v ≤ (serialize v).data.length := by
  induction h with
  | null => decide
  | bool b => cases b <;> decide
  | str s2 =>
    show 1 ≤ (quoteString s2).data.length
    simp [quoteString]
  | num raw hshape =>
    obtain ⟨c, t, heq, _⟩ := numShape_head hshape
    show 1 ≤ raw.data.length
    simp [heq]
  | arr items h ih =>
    have hb := nodeCountItems_le items ih
    show 1 + nodeCountItems items ≤ (("[" ++ serializeItems items ++ "]") : String).data.length
    have h1 : (("[" : String)).data.length = 1 := rfl
    have h2 : (("]" : String)).data.length = 1 := rfl
    simp only [String.data_append, List.length_append, h1, h2]
    omega
  | obj fields h ih =>
    have hb := nodeCountFields_le fields ih
    show 1 + nodeCountFields fields ≤
      ((String.singleton obraceC ++ serializeFields fields ++ String.singleton cbraceC) :
        String).data.length
    have h1 : (String.singleton obraceC).data.length = 1 := rfl
    have h2 : (String.singleton cbraceC).data.length = 1 := rfl
    simp only [String.data_append, List.length_append, h1, h2]
    omega

theorem jsonVal_default (f : Nat) (c : Char) (t : List Char)
    (hw : wsChar c = false)
    (hn : c ≠ 'n') (ht : c ≠ 't') (hf2 : c ≠ 'f') (hb : c ≠ '[')
    (hq : (c == dquoteC) = false) (ho : (c == obraceC) = false) :
    jsonVal (f + 1) (c :: t) =
      (match numberToken (c :: t) with
       | some (tok, r2) => some (.num (String.mk tok), r2)
       | none => none) := by
  have hskip : skipWsL (c :: t) = c :: t := skipWsL_cons t hw
  rw [jsonVal_succ, hskip]
  split <;> (intros; simp_all)

theorem itemsData_single (v : Json) (rest : List Char) :
    (serializeItems [v]).data ++ rest = (serialize v).data ++ rest := rfl

theorem itemsData_cons2 (v w : Json) (ws : List Json) (rest : List Char) :
    (serializeItems (v :: w :: ws)).data ++ rest =
      (serialize v).data ++ (',' :: ((serializeItems (w :: ws)).data ++ rest)) := by
  show ((serialize v ++ "," ++ serializeItems (w :: ws)) : String).data ++ rest = _
  simp [String.data_append]

theorem fieldsData_single (k : String) (v : Json) (rest : List Char) :
    (serializeFields [(k, v)]).data ++ rest =
      dquoteC :: (k.data.flatMap escapeChar ++
        (dquoteC :: (':' :: ((serialize v).data ++ rest)))) := by
  show ((quoteString k ++ ":" ++ serialize v) : String).data ++ rest = _
  simp [quoteString, String.data_append]

theorem fieldsData_cons2 (k : String) (v : Json) (kw : String × Json)
    (fs2 : List (String × Json)) (rest : List Char) :
    (serializeFields ((k, v) :: kw :: fs2)).data ++ rest =
      dquoteC :: (k.data.flatMap escapeChar ++
        (dquoteC :: (':' :: ((serialize v).data ++
          (',' :: ((serializeFields (kw :: fs2)).data ++ rest)))))) := by
  show ((quoteString k ++ ":" ++ serialize v ++ "," ++ serializeFields (kw :: fs2)) :
    String).data ++ rest = _
  simp [quoteString, String.data_append]

theorem roundtrip : ∀ fuel : Nat,
    (∀ v rest, WfJson v → nodeCount v ≤ fuel → stopOrEnd rest = true →
       jsonVal fuel ((serialize v).data ++ rest) = some (v, rest)) ∧
    (∀ items rest, items ≠ [] → (∀ v ∈ items, WfJson v) →
       nodeCountItems items ≤ fuel →
       jsonElems fuel ((serializeItems items).data ++ (']' :: rest)) =
         some (items, ']' :: rest)) ∧
    (∀ fields rest, fields ≠ [] → (∀ kv ∈ fields, WfJson kv.2) →
       nodeCountFields fields ≤ fuel →
       jsonMembers fuel ((serializeFields fields).data ++ (cbraceC :: rest)) =
         some (fields, cbraceC :: rest)) := by
  intro fuel
  induction fuel with
  | zero =>
    refine ⟨?_, ?_, ?_⟩
    · intro v rest _ hfuel _
      exact absurd hfuel (by have := nodeCount_pos v; omega)
    · intro items rest hne _ hfuel
      cases items with
      | nil => exact absurd rfl hne
      | cons v vs =>
        simp only [nodeCountItems] at hfuel
        omega
    · intro fields rest hne _ hfuel
      cases fields with
      | nil => exact absurd rfl hne
      | cons kv fs =>
        simp only [nodeCountFields] at hfuel
        omega
  | succ f ih =>
    obtain ⟨ihv, ihe, ihm⟩ := ih
    refine ⟨?_, ?_, ?_⟩
    · intro v rest hwf hfuel hstop
      cases hwf with
      | null => rfl
      | bool b => cases b <;> rfl
      | str s2 =>
        have hv : jsonVal (f + 1)
            (dquoteC :: (s2.data.flatMap escapeChar ++ (dquoteC :: rest))) =
            (match stringBody (s2.data.flatMap escapeChar ++ (dquoteC :: rest)) with
             | some (t, r2) => some (.str (String.mk t), r2)
             | none => none) := rfl
        calc jsonVal (f + 1) ((serialize (.str s2)).data ++ rest)
            = jsonVal (f + 1)
                (dquoteC :: (s2.data.flatMap escapeChar ++ (dquoteC :: rest))) := by
              show jsonVal (f + 1) ((quoteString s2).data ++ rest) = _
              simp [quoteString]
          _ = some (.str s2, rest) := by rw [hv, stringBody_escape]
      | num raw hshape =>
        obtain ⟨c, t, heqd, hdig⟩ := numShape_head hshape
        obtain ⟨hw, hn, ht, hf2, hb, hq, ho⟩ :
            wsChar c = false ∧ c ≠ 'n' ∧ c ≠ 't' ∧ c ≠ 'f' ∧ c ≠ '[' ∧
              (c == dquoteC) = false ∧ (c == obraceC) = false := by
          rcases hdig with hd | rfl
          · exact ⟨wsChar_of_digit hd, digit_ne hd (by decide), digit_ne hd (by decide),
              digit_ne hd (by decide), digit_ne hd (by decide),
              digit_beq_false hd (by decide), digit_beq_false hd (by decide)⟩
          · exact ⟨by decide, by decide, by decide, by decide, by decide,
              by decide, by decide⟩
        have hser : (serialize (Json.num raw)).data ++ rest = c :: (t ++ rest) := by
          show raw.data ++ rest = _
          rw [heqd]
          rfl
        have hnum : numberToken (c :: (t ++ rest)) = some (c :: t, rest) := by
          have hcomp := numberToken_complete raw.data rest hshape hstop
          rw [heqd] at hcomp
          simpa [List.cons_append] using hcomp
        rw [hser, jsonVal_default f c (t ++ rest) hw hn ht hf2 hb hq ho, hnum]
        show some (Json.num (String.mk (c :: t)), rest) = some (Json.num raw, rest)
        rw [← heqd]
      | arr items hall =>
        cases items with
        | nil => rfl
        | cons v vs =>
          have hv1 : WfJson v := hall v (List.mem_cons_self _ _)
          obtain ⟨c0, t0, hc0, hw0, hne0, _⟩ := serialize_head hv1
          have hfuelE : nodeCountItems (v :: vs) ≤ f := by
            simp only [nodeCount] at hfuel
            omega
          have hdata : (serialize (Json.arr (v :: vs))).data ++ rest =
              '[' :: ((serializeItems (v :: vs)).data ++ (']' :: rest)) := by
            show (("[" ++ serializeItems (v :: vs) ++ "]") : String).data ++ rest = _
            simp [String.data_append]
          rw [hdata]
          show (match skipWsL ((serializeItems (v :: vs)).data ++ (']' :: rest)) with
            | ']' :: r2 => some (Json.arr [], r2)
            | r2 =>
              match jsonElems f r2 with
              | some (vs2, r3) =>
                match skipWsL r3 with
                | ']' :: r4 => some (Json.arr vs2, r4)
                | _ => none
              | none => none) = some (Json.arr (v :: vs), rest)
          obtain ⟨t1, hX⟩ :
              ∃ t1, (serializeItems (v :: vs)).data ++ (']' :: rest) = c0 :: t1 := by
            cases vs with
            | nil =>
              exact ⟨t0 ++ (']' :: rest), by rw [itemsData_single, hc0]; simp⟩
            | cons w ws =>
              exact ⟨t0 ++ (',' :: ((serializeItems (w :: ws)).data ++ (']' :: rest))),
                by rw [itemsData_cons2, hc0]; simp⟩
          rw [hX, skipWsL_cons t1 hw0]
          split
          · next r2 heq =>
            injection heq with h1 h2
            exact absurd h1 hne0
          · next r2 hno =>
            rw [← hX, ihe (v :: vs) rest (by simp) hall hfuelE]
            rfl
      | obj fields hall =>
        cases fields with
        | nil => rfl
        | cons kv fs =>
          obtain ⟨k, v⟩ := kv
          have hfuelM : nodeCountFields ((k, v) :: fs) ≤ f := by
            simp only [nodeCount] at hfuel
            omega
          have hdata : (serialize (Json.obj ((k, v) :: fs))).data ++ rest =
              obraceC :: ((serializeFields ((k, v) :: fs)).data ++ (cbraceC :: rest)) := by
            show ((String.singleton obraceC ++ serializeFields ((k, v) :: fs) ++
              String.singleton cbraceC) : String).data ++ rest = _
            simp [String.data_append, String.singleton]
          rw [hdata]
          show (match skipWsL ((serializeFields ((k, v) :: fs)).data ++
              (cbraceC :: rest)) with
            | [] => none
            | d :: r2 =>
              if d == cbraceC then some (Json.obj [], r2)
              else
                match jsonMembers f (d :: r2) with
                | some (fs2, r3) =>
                  match skipWsL r3 with
                  | e :: r4 => if e == cbraceC then some (Json.obj fs2, r4) else none
                  | [] => none
                | none => none) = some (Json.obj ((k, v) :: fs), rest)
          obtain ⟨t1, hR⟩ :
              ∃ t1, (serializeFields ((k, v) :: fs)).data ++ (cbraceC :: rest) =
                dquoteC :: t1 := by
            cases fs with
            | nil => exact ⟨_, fieldsData_single k v (cbraceC :: rest)⟩
            | cons kw fs2 => exact ⟨_, fieldsData_cons2 k v kw fs2 (cbraceC :: rest)⟩
          rw [hR, skipWsL_cons t1 (by decide)]
          show (match jsonMembers f (dquoteC :: t1) with
            | some (fs2, r3) =>
              match skipWsL r3 with
              | e :: r4 => if e == cbraceC then some (Json.obj fs2, r4) else none
              | [] => none
            | none => none) = some (Json.obj ((k, v) :: fs), rest)
          rw [← hR, ihm ((k, v) :: fs) rest (by simp) hall hfuelM]
          rfl
    · intro items rest hne hwfa hfuel
      cases items with
      | nil => exact absurd rfl hne
      | cons v vs =>
        have hv1 : WfJson v := hwfa v (List.mem_cons_self _ _)
        rw [jsonElems_succ]
        cases vs with
        | nil =>
          rw [itemsData_single, ihv v (']' :: rest) hv1
            (by simp only [nodeCountItems] at hfuel; omega) rfl]
          rfl
        | cons w ws =>
          rw [itemsData_cons2,
            ihv v (',' :: ((serializeItems (w :: ws)).data ++ (']' :: rest))) hv1
              (by simp only [nodeCountItems] at hfuel; omega) rfl]
          show (match jsonElems f ((serializeItems (w :: ws)).data ++ (']' :: rest)) with
            | some (vs2, r3) => some (v :: vs2, r3)
            | none => none) = some (v :: w :: ws, ']' :: rest)
          rw [ihe (w :: ws) rest (by simp)
            (fun u hu => hwfa u (List.mem_cons_of_mem _ hu))
            (by simp only [nodeCountItems] at hfuel ⊢
                have := nodeCount_pos v
                omega)]
    · intro fields rest hne hwfa hfuel
      cases fields with
      | nil => exact absurd rfl hne
      | cons kv fs =>
        obtain ⟨k, v⟩ := kv
        have hv1 : WfJson v := hwfa (k, v) (List.mem_cons_self _ _)
        rw [jsonMembers_succ]
        cases fs with
        | nil =>
          rw [fieldsData_single]
          show (match stringBody (k.data.flatMap escapeChar ++
              (dquoteC :: (':' :: ((serialize v).data ++ (cbraceC :: rest))))) with
            | some (k2, r2) =>
              match skipWsL r2 with
              | ':' :: r3 =>
                match jsonVal f r3 with
                | some (v2, r4) =>
                  match skipWsL r4 with
                  | ',' :: r5 =>
                    match jsonMembers f r5 with
                    | some (fs2, r6) => some ((String.mk k2, v2) :: fs2, r6)
                    | none => none
                  | r5 => some ([(String.mk k2, v2)], r5)
                | none => none
              | _ => none
            | none => none) = some ([(k, v)], cbraceC :: rest)
          rw [stringBody_escape]
          show (match jsonVal f ((serialize v).data ++ (cbraceC :: rest)) with
            | some (v2, r4) =>
              match skipWsL r4 with
              | ',' :: r5 =>
                match jsonMembers f r5 with
                | some (fs2, r6) => some ((String.mk k.data, v2) :: fs2, r6)
                | none => none
              | r5 => some ([(String.mk k.data, v2)], r5)
            | none => none) = some ([(k, v)], cbraceC :: rest)
          rw [ihv v (cbraceC :: rest) hv1
            (by simp only [nodeCountFields] at hfuel; omega) rfl]
          rfl
        | cons kw fs2 =>
          rw [fieldsData_cons2]
          show (match stringBody (k.data.flatMap escapeChar ++
              (dquoteC :: (':' :: ((serialize v).data ++
                (',' :: ((serializeFields (kw :: fs2)).data ++ (cbraceC :: rest))))))) with
            | some (k2, r2) =>
              match skipWsL r2 with
              | ':' :: r3 =>
                match jsonVal f r3 with
                | some (v2, r4) =>
                  match skipWsL r4 with
                  | ',' :: r5 =>
                    match jsonMembers f r5 with
                    | some (fs3, r6) => some ((String.mk k2, v2) :: fs3, r6)
                    | none => none
                  | r5 => some ([(String.mk k2, v2)], r5)
                | none => none
              | _ => none
            | none => none) = some ((k, v) :: kw :: fs2, cbraceC :: rest)
          rw [stringBody_escape]
          show (match jsonVal f ((serialize v).data ++
              (',' :: ((serializeFields (kw :: fs2)).data ++ (cbraceC :: rest)))) with
            | some (v2, r4) =>
              match skipWsL r4 with
              | ',' :: r5 =>
                match jsonMembers f r5 with
                | some (fs3, r6) => some ((String.mk k.data, v2) :: fs3, r6)
                | none => none
              | r5 => some ([(String.mk k.data, v2)], r5)
            | none => none) = some ((k, v) :: kw :: fs2, cbraceC :: rest)
          rw [ihv v (',' :: ((serializeFields (kw :: fs2)).data ++ (cbraceC :: rest))) hv1
            (by simp only [nodeCountFields] at hfuel; omega) rfl]
          show (match jsonMembers f
              ((serializeFields (kw :: fs2)).data ++ (cbraceC :: rest)) with
            | some (fs3, r6) => some ((String.mk k.data, v) :: fs3, r6)
            | none => none) = some ((k, v) :: kw :: fs2, cbraceC :: rest)
          rw [ihm (kw :: fs2) rest (by simp)
            (fun u hu => hwfa u (List.mem_cons_of_mem _ hu))
            (by simp only [nodeCountFields] at hfuel ⊢
                have := nodeCount_pos v
                omega)]

theorem parseJson_serialize {v : Json} (h : WfJson v) :
    parseJson (serialize v) = some v := by
  have hb := nodeCount_le h
  have hr := (roundtrip (2 * (serialize v).toList.length + 4)).1 v [] h
    (by show nodeCount v ≤ 2 * (serialize v).data.length + 4; omega) rfl
  simp only [List.append_nil] at hr
  simp only [parseJson]
  rw [show (serialize v).toList = (serialize v).data from rfl] at hr ⊢
  rw [hr]
  rfl

/-- C1: for the document with the single digit key 0 holding an object with
a bar field, extraction with the dot form, the unquoted bracket form, and
the double-quoted bracket form each yields exactly one match, the array of
1 and 2, while the dotted single-quote form yields zero matches. -/
theorem c1_dual_match_object :
    extract docDualObj pathDotZeroBar = .ok ["[1,2]"] ∧
    extract docDualObj pathBracketZeroBar = .ok ["[1,2]"] ∧
    extract docDualObj pathDQuoteZeroBar = .ok ["[1,2]"] ∧
    extract docDualObj pathDotQuoteZeroBar = .ok [] :=
  ⟨rfl, rfl, rfl, rfl⟩

/-- C2 counterexample: an unquoted bracket digit segment does match an
object key — on the object document whose only key is the digit string 0,
the bracket path produces a match, not zero matches; and it compiles to the
dual-match selector, not to the index-only selector. -/
theorem c2_counterexample :
    extract docDualObj pathBracketZero ≠ Except.ok [] ∧
    compilePath pathBracketZero ≠ some [Selector.childByIndex 0] :=
  ⟨by decide, by decide⟩

/-- C2 amended: a bare bracket numeric segment without quotes compiles to
the dual-match selector ChildByNameOrIndex, exactly like the dot form, and
matches both an array index and an object key equal to the digit string. -/
theorem c2_unquoted_bracket_dual_match :
    compilePath pathBracketZero = some [Selector.childByNameOrIndex "0"] ∧
    compilePath pathDotZero = compilePath pathBracketZero ∧
    extract docDigitsObj pathBracketOne = .ok ["1"] ∧
    extract docDigitsArr pathBracketOne = .ok ["1"] ∧
    extract docDigitsObj pathDotOne = .ok ["1"] ∧
    extract docDigitsArr pathDotOne = .ok ["1"] :=
  ⟨rfl, rfl, rfl, rfl, rfl, rfl⟩

/-- C3: on the two-element array document, the unquoted bracket digit
indexes the array and yields exactly one match, while the double- and
single-quoted digit forms never index an array and yield zero matches. -/
theorem c3_quoted_digit_never_indexes :
    extract docDualArr pathBracketZeroBar = .ok ["[1,2]"] ∧
    extract docDualArr pathDQuoteZeroBar = .ok [] ∧
    extract docDualArr pathSQuoteZeroBar = .ok [] :=
  ⟨rfl, rfl, rfl⟩

/-- C4: recursive descent emits matching descendants in pre-order — on the
nested test document the descent to the key array yields exactly two
matches, the outer array first and the inner array second. -/
theorem c4_recursive_descent_preorder :
    extract docRecursive pathDescArray = .ok ["[0,1,2]", "[4,5,6]"] := rfl

/-- C5: chaining two expansion selectors applies the second independently
to every node the first produces, concatenating in production order and
keeping duplicates from overlapping subtrees — the chained descent path
yields exactly the five matches 1, value, 5, value, 5 in that order. -/
theorem c5_chained_expansion_cross_product :
    extract docRecursive pathDescObjOne =
      .ok ["1", "\"value\"", "5", "\"value\"", "5"] := rfl

/-- C6: every malformed path — empty, whitespace-only, duplicated root
anchor, unanchored, trailing bare dot, unterminated bracket, trailing
unrecognised characters — fails at compile time, and extract reports the
InvalidPathError for it on every document, before ever looking at the
document (never as a traversal-time status). -/
theorem c6_invalid_paths_compile_failure (json : String) :
    compilePath pathEmpty = none ∧
    extract json pathEmpty = .error .invalidPath ∧
    compilePath pathWsOnly = none ∧
    extract json pathWsOnly = .error .invalidPath ∧
    compilePath pathDoubleDollar = none ∧
    extract json pathDoubleDollar = .error .invalidPath ∧
    compilePath pathNoDollar = none ∧
    extract json pathNoDollar = .error .invalidPath ∧
    compilePath pathBareDot = none ∧
    extract json pathBareDot = .error .invalidPath ∧
    compilePath pathOpenBracket = none ∧
    extract json pathOpenBracket = .error .invalidPath ∧
    compilePath pathTrailingJunk = none ∧
    extract json pathTrailingJunk = .error .invalidPath :=
  ⟨rfl, rfl, rfl, rfl, rfl, rfl, rfl, rfl, rfl, rfl, rfl, rfl, rfl, rfl⟩

/-- C7: for every path that compiles and every document the decoder
rejects, extract returns the JsonParseError status — a value, never a
throw — and that status is distinguishable from the success status of a
zero-match extraction; the three malformed test documents are rejected by
the decoder, and the empty-object document gives the zero-match success. -/
theorem c7_malformed_json_status (json path : String) (prog : List Selector)
    (hc : compilePath path = some prog) (hp : parseJson json = none) :
    extract json path = .error .jsonParseError ∧
    parseJson docBadKey = none ∧
    parseJson docBadValue = none ∧
    parseJson docBadArray = none ∧
    extract docEmptyObj pathFoo = .ok [] ∧
    (Except.error ExtractError.jsonParseError : Except ExtractError (List String)) ≠ .ok [] := by
  refine ⟨?_, rfl, rfl, rfl, rfl, by decide⟩
  simp only [extract, hc, hp]

/-- C7 witness: the malformed-document theorem applied to the unterminated
key-quote test document and the compiling path on the foo key. -/
theorem c7_malformed_json_status_witness :
    compilePath pathFoo = some [Selector.childByName "foo"] ∧
    parseJson docBadKey = none ∧
    extract docBadKey pathFoo = .error .jsonParseError :=
  ⟨rfl, rfl,
    (c7_malformed_json_status docBadKey pathFoo [Selector.childByName "foo"] rfl rfl).1⟩

/-- C8: path-prefix composability at the text level, for every document —
whenever pathA, pathB and a concatenated path compile, the concatenated
path compiling to the concatenation of the two programs, and pathA is
definite, extracting with the concatenated path from the document equals
extracting with pathA and re-extracting with pathB from the serialised
intermediate match. -/
theorem c8_prefix_composability (json pathA pathB pathAB : String)
    (progA progB : List Selector)
    (hA : compilePath pathA = some progA)
    (hB : compilePath pathB = some progB)
    (hAB : compilePath pathAB = some (progA ++ progB))
    (hdef : isDefinite progA = true) :
    reExtract json pathA pathB = extract json pathAB := by
  have hEA : extract json pathA = (match parseJson json with
      | none => .error .jsonParseError
      | some doc => .ok ((evalProgram progA doc).map serialize)) := by
    simp only [extract, hA]
  have hEAB : extract json pathAB = (match parseJson json with
      | none => .error .jsonParseError
      | some doc => .ok ((evalProgram (progA ++ progB) doc).map serialize)) := by
    simp only [extract, hAB]
  rw [reExtract, hEA, hEAB]
  cases hp : parseJson json with
  | none => rfl
  | some doc =>
    dsimp only
    have hwf := parseJson_wf hp
    have hlen := evalProgram_def_len progA doc hdef
    rw [evalProgram_append]
    cases hev : evalProgram progA doc with
    | nil => rfl
    | cons u us =>
      cases us with
      | nil =>
        have hu : WfJson u :=
          evalProgram_wf progA doc hwf u (by rw [hev]; exact List.mem_singleton.mpr rfl)
        show extract (serialize u) pathB =
          .ok (([u].flatMap (evalProgram progB)).map serialize)
        simp only [extract, hB, parseJson_serialize hu, List.flatMap_cons,
          List.flatMap_nil, List.append_nil]
      | cons w ws =>
        rw [hev] at hlen
        simp at hlen

/-- C8 witness: the composability theorem at the store document with the
store prefix, the fruit suffix and the concatenated store.fruit path. -/
theorem c8_prefix_composability_witness :
    compilePath pathStore = some [Selector.childByName "store"] ∧
    compilePath pathFruit = some [Selector.childByName "fruit"] ∧
    compilePath pathStoreFruit =
      some ([Selector.childByName "store"] ++ [Selector.childByName "fruit"]) ∧
    isDefinite [Selector.childByName "store"] = true ∧
    reExtract docStore pathStore pathFruit = extract docStore pathStoreFruit :=
  ⟨rfl, rfl, rfl, by decide,
    c8_prefix_composability docStore pathStore pathFruit pathStoreFruit
      [Selector.childByName "store"] [Selector.childByName "fruit"]
      rfl rfl rfl (by decide)⟩

/-- C9: scalar-extraction mode on a single matched node — null yields no
value, booleans yield the literal true and false texts, a string yields its
fully unescaped content (the hexadecimal escape becomes the control
character 0x01), a number yields its canonical numeric text, arrays and
objects yield no value; and when the consumer is invoked more than once the
whole extraction yields no value, although the matches exist. -/
theorem c9_scalar_projection :
    extractScalar docNull pathRoot = .ok none ∧
    extractScalar docTrue pathRoot = .ok (some "true") ∧
    extractScalar docFalse pathRoot = .ok (some "false") ∧
    extractScalar docEscStr pathRoot =
      .ok (some (String.mk ['a', 'b', Char.ofNat 1, 'c'])) ∧
    extractScalar docNum pathRoot = .ok (some "123") ∧
    extractScalar docDigitsArr pathRoot = .ok none ∧
    extractScalar docSmallObj pathRoot = .ok none ∧
    extract docDigitsArr pathStarOnly = .ok ["0", "1", "2"] ∧
    extractScalar docDigitsArr pathStarOnly = .ok none :=
  ⟨rfl, rfl, rfl, rfl, rfl, rfl, rfl, rfl, rfl⟩

/-- C10: a dot immediately followed by a bracket segment compiles without
error and to exactly the program of the path without that dot, so the two
spellings evaluate identically on every document; on the mixed test
document the dotted-bracket forms produce the expected matches. -/
theorem c10_dot_before_bracket (json : String) :
    compilePath pathBookDotStar = compilePath pathBookStar ∧
    (compilePath pathBookDotStar).isSome = true ∧
    compilePath pathStarDotZero = compilePath pathStarZero ∧
    compilePath pathStarDotQuote = compilePath pathStarQuote ∧
    extract json pathBookDotStar = extract json pathBookStar ∧
    extract json pathStarDotZero = extract json pathStarZero ∧
    extract json pathStarDotQuote = extract json pathStarQuote ∧
    extract docMixed pathStarDotZero = .ok ["\"obj\"", "\"array0\""] ∧
    extract docMixed pathStarDotQuote = .ok ["\"obj\""] :=
  ⟨rfl, rfl, rfl, rfl, rfl, rfl, rfl, rfl, rfl⟩

end VeloxJsonPath
